import Mathlib

/-!
Verification of the iterator layer of a leveldb binding.

The repository's iterator layer (src/database/iterator.rs) wraps a raw
engine cursor with optional `from`/`to`/prefix bounds, a direction, and a
NotStarted/Started traversal flag.  We shallowly embed the store as a list
of (key, value) byte-string pairs and the raw cursor as an integer
position into that list; the iterator layer's `valid`, `advance`,
`reverse`, `seek_to_last`, `last`, `key`, `value` and the pull-based
`next` loop are translated function by function from the source.
-/

namespace LdbIter

/-- Byte strings are modelled as lists of naturals. -/
abbrev Bytes := List Nat

/-- The store snapshot: entries (key, value) in ascending key order. -/
abbrev Store := List (Bytes × Bytes)

/-- Strict lexicographic order on byte strings (the engine's default
comparator: shorter prefixes sort first, bytes compared numerically). -/
def lexLt : Bytes → Bytes → Bool
  | [], [] => false
  | [], _ :: _ => true
  | _ :: _, [] => false
  | a :: as, b :: bs => if a < b then true else if b < a then false else lexLt as bs

/-- Non-strict order: `lexLe a b` means `a ≤ b`, i.e. not `b < a`. -/
def lexLe (a b : Bytes) : Bool := !(lexLt b a)

/-- `startsWith a p` is Rust's `a.starts_with(p)`: the bytes `p` are a
byte-prefix of `a`. -/
def startsWith : Bytes → Bytes → Bool
  | _, [] => true
  | [], _ :: _ => false
  | a :: as, b :: bs => a == b && startsWith as bs

/-- Engine seek position: index of the first entry whose key is ≥ the
target, or the store length (an invalid past-end position) when no such
entry exists.  Modelled from the spec (§4.2): seeking to a key that does
not exist lands the cursor at the next key greater than the target. -/
def seekIdx (k : Bytes) : Store → Nat
  | [] => 0
  | e :: rest => if lexLe k e.1 then 0 else seekIdx k rest + 1

/-! ## The iterator model, translated from src/database/iterator.rs -/

/-- The entry at integer cursor position `p` of a store snapshot.
Modelled from the spec (§4.1): the cursor's key/value accessors are
defined only while the cursor is valid; an out-of-range access is
modelled as the empty entry. -/
def entryAt (s : Store) (p : Int) : Bytes × Bytes :=
  if 0 ≤ p then (s.get? p.toNat).getD ([], []) else ([], [])

/-- Current key bytes of the raw cursor. -/
def keyAt (s : Store) (p : Int) : Bytes := (entryAt s p).1

/-- Current value bytes of the raw cursor. -/
def valueAt (s : Store) (p : Int) : Bytes := (entryAt s p).2

/-- `leveldb_iter_valid`: the raw cursor sits on an actual entry. -/
def rawValid (s : Store) (p : Int) : Bool :=
  decide (0 ≤ p) && decide (p < (s.length : Int))

/-- `leveldb_iter_next` / `leveldb_iter_prev`: one raw cursor step in the
iterator's direction (`reverse = true` steps backward). -/
def stepRaw (p : Int) (reverse : Bool) : Int := if reverse then p - 1 else p + 1

/-- `leveldb_iter_seek` as an integer position (see `seekIdx`). -/
def seekPos (s : Store) (k : Bytes) : Int := (seekIdx k s : Int)

/-- State of a bounded iterator (`Iterator` / `RevIterator` and the
projection views, which share this state through their inner iterator):
raw cursor position, the `start` flag, and the three optional bounds.
The direction is carried by the Rust type and is passed separately as the
`reverse` flag, exactly as the source's `valid(reverse)`/`advance(reverse)`
do. -/
structure LIter where
  pos : Int
  start : Bool
  fromK : Option Bytes
  toK : Option Bytes
  pfxK : Option Bytes
  deriving Repr, DecidableEq

/-- `LevelDBIterator::valid`, translated clause by clause: the raw cursor
must be valid; then a prefix bound (if set) must be a byte-prefix of the
current key; otherwise the `from`/`to` comparators are chosen by
direction (`reverse` swaps them). -/
def valid (s : Store) (it : LIter) (reverse : Bool) : Bool :=
  if rawValid s it.pos then
    match it.pfxK with
    | some k => startsWith (keyAt s it.pos) k
    | none =>
      let fromOk :=
        match it.fromK with
        | some k => if reverse then lexLe (keyAt s it.pos) k else lexLe k (keyAt s it.pos)
        | none => true
      let toOk :=
        match it.toK with
        | some k => if reverse then lexLe k (keyAt s it.pos) else lexLe (keyAt s it.pos) k
        | none => true
      fromOk && toOk
  else false

/-- `LevelDBIterator::advance`: when already started, one raw step; on the
first call, the bound-aware initial seek (prefix first, else `from` with
the one-step-back correction for reverse), then the `start` flag drops.
Returns the new state and the validity of the new position. -/
def advance (s : Store) (it : LIter) (reverse : Bool) : LIter × Bool :=
  let it' :=
    if !it.start then
      { it with pos := stepRaw it.pos reverse }
    else
      let it1 :=
        match it.pfxK with
        | some k => { it with pos := seekPos s k }
        | none =>
          match it.fromK with
          | some k =>
            let itA := { it with pos := seekPos s k }
            if !(valid s itA reverse) && reverse then
              { itA with pos := stepRaw itA.pos reverse }
            else
              { itA with pos := seekPos s k }
          | none => it
      { it1 with start := false }
  (it', valid s it' reverse)

/-- `iter::Iterator::next` from the `impl_iterator!` macro: advance, then
yield the current entry when valid. -/
def nextEntry (s : Store) (it : LIter) (reverse : Bool) :
    Option (Bytes × Bytes) × LIter :=
  let (it', ok) := advance s it reverse
  (if ok then some (entryAt s it'.pos) else none, it')

/-- Exhausting the pull loop (with fuel): collect entries until the first
`None`, exactly as a Rust `for`/`collect` over the iterator does. -/
def run (s : Store) (reverse : Bool) : Nat → LIter → List (Bytes × Bytes)
  | 0, _ => []
  | fuel + 1, it =>
    match nextEntry s it reverse with
    | (some e, it') => e :: run s reverse fuel it'
    | (none, _) => []

/-- Exhaustive traversal: `s.length + 1` pulls always suffice. -/
def collect (s : Store) (reverse : Bool) (it : LIter) : List (Bytes × Bytes) :=
  run s reverse (s.length + 1) it

/-- `Iterator::new`: cursor seeked to first, `start = true`, no bounds. -/
def newIter : LIter := ⟨0, true, none, none, none⟩

/-- `LevelDBIterator::from` builder. -/
def withFrom (it : LIter) (k : Bytes) : LIter := { it with fromK := some k }

/-- `LevelDBIterator::to` builder. -/
def withTo (it : LIter) (k : Bytes) : LIter := { it with toK := some k }

/-- `LevelDBIterator::prefix` builder. -/
def withPfx (it : LIter) (k : Bytes) : LIter := { it with pfxK := some k }

/-- `Iterator::reverse` / `RevIterator::reverse`: same state handed to the
opposite-direction type; when not yet started, the cursor is repositioned
to the opposite initial edge (`curReverse` is the direction of the
iterator being consumed). -/
def reverseIt (s : Store) (it : LIter) (curReverse : Bool) : LIter :=
  if it.start then
    { it with pos := if curReverse then 0 else (s.length : Int) - 1 }
  else it

/-- `LevelDBIterator::key`: unconditionally copies the raw cursor's
current key bytes (the source performs no validity check). -/
def keyFn (s : Store) (it : LIter) : Bytes := keyAt s it.pos

/-- `LevelDBIterator::value`: unconditionally copies the raw cursor's
current value bytes (no validity check). -/
def valueFn (s : Store) (it : LIter) : Bytes := valueAt s it.pos

/-- `LevelDBIterator::entry`. -/
def entryFn (s : Store) (it : LIter) : Bytes × Bytes := (keyFn s it, valueFn s it)

/-- `LevelDBIterator::seek_to_last`: seek to the `to` bound when one is
set, else the raw seek-to-last position. -/
def seekToLastPos (s : Store) (it : LIter) : Int :=
  match it.toK with
  | some k => seekPos s k
  | none => (s.length : Int) - 1

/-- `Iterator::last`: seek_to_last, then unconditionally `Some(entry)`. -/
def lastEntry (s : Store) (it : LIter) : Option (Bytes × Bytes) :=
  some (keyAt s (seekToLastPos s it), valueAt s (seekToLastPos s it))

/-- `KeyIterator::last`: seek_to_last, then unconditionally `Some(key)`. -/
def lastKey (s : Store) (it : LIter) : Option Bytes :=
  some (keyAt s (seekToLastPos s it))

/-- `ValueIterator::last`: seek_to_last, then unconditionally `Some(value)`. -/
def lastValue (s : Store) (it : LIter) : Option Bytes :=
  some (valueAt s (seekToLastPos s it))

/-- The pull loop of a projection view (`impl_iterator!` with a chosen
item extractor): advance, then yield `item` at the current position. -/
def runItem (s : Store) (reverse : Bool) (item : Store → Int → Bytes) :
    Nat → LIter → List Bytes
  | 0, _ => []
  | fuel + 1, it =>
    let (it', ok) := advance s it reverse
    if ok then item s it'.pos :: runItem s reverse item fuel it' else []

/-- `KeyIterator` exhausted: `impl_iterator!(KeyIterator, Vec<u8>, key, false)`. -/
def collectKeysFwd (s : Store) (it : LIter) : List Bytes :=
  runItem s false keyAt (s.length + 1) it

/-- `RevKeyIterator` exhausted: `impl_iterator!(RevKeyIterator, Vec<u8>, key, true)`. -/
def collectKeysRev (s : Store) (it : LIter) : List Bytes :=
  runItem s true keyAt (s.length + 1) it

/-- `ValueIterator` exhausted: `impl_iterator!(ValueIterator, Vec<u8>, value, false)`. -/
def collectValuesFwd (s : Store) (it : LIter) : List Bytes :=
  runItem s false valueAt (s.length + 1) it

/-- `RevValueIterator` exhausted: the macro invocation at line 532 reads
`impl_iterator!(RevValueIterator, Vec<u8>, key, true)` — the item method
is `key`, so this collects KEYS. -/
def collectRevValueIter (s : Store) (it : LIter) : List Bytes :=
  runItem s true keyAt (s.length + 1) it

/-- Store sortedness: keys strictly ascending in lexicographic order. -/
abbrev sortedStore (s : Store) : Prop :=
  List.Pairwise (fun a b => lexLt a.1 b.1 = true) s

/-- The key-only part of the validity check: `valid` is the conjunction of
raw cursor validity and this predicate on the current key (see
`valid_eq_vKey`).  Factored out for the traversal lemmas. -/
def vKey (it : LIter) (reverse : Bool) (k : Bytes) : Bool :=
  match it.pfxK with
  | some p => startsWith k p
  | none =>
    (match it.fromK with
     | some f => if reverse then lexLe k f else lexLe f k
     | none => true) &&
    (match it.toK with
     | some t => if reverse then lexLe t k else lexLe k t
     | none => true)

/-- Store with keys 1 and 2, value = key (test `test_iterator`, spec
Scenario D). -/
def storeTwo : Store := [([1], [1]), ([2], [2])]

/-- Store with keys 1, 2, 3, 4, 10, value = key (spec Scenario B). -/
def storeB : Store := [([1], [1]), ([2], [2]), ([3], [3]), ([4], [4]), ([10], [10])]

/-- Store with keys 1, 2, 4: key 3 is absent. -/
def store124 : Store := [([1], [1]), ([2], [2]), ([4], [4])]

/-- Store with two entries whose values differ from their keys. -/
def storeKV : Store := [([1], [10]), ([2], [20])]

/-- Store with two keys carrying byte-prefix 1 and one key that does not. -/
def storePfx : Store := [([1], [5]), ([1, 1], [6]), ([2], [7])]

/-- A started iterator sitting on the first entry with a `from` bound of
[2]: its validity check fails while the raw cursor is on a real entry. -/
def itBelowFrom : LIter := ⟨0, false, some [2], none, none⟩

/-! ## Theorems -/

theorem lexLt_irrefl (a : Bytes) : lexLt a a = false := by
  induction a with
  | nil => rfl
  | cons x xs ih => simp [lexLt, ih]

theorem lexLt_trans {a b c : Bytes} (hab : lexLt a b = true)
    (hbc : lexLt b c = true) : lexLt a c = true := by
  induction a generalizing b c with
  | nil =>
    cases b with
    | nil => exact absurd hab (by simp [lexLt])
    | cons y ys =>
      cases c with
      | nil => exact absurd hbc (by simp [lexLt])
      | cons z zs => rfl
  | cons x xs ih =>
    cases b with
    | nil => exact absurd hab (by simp [lexLt])
    | cons y ys =>
      cases c with
      | nil => exact absurd hbc (by simp [lexLt])
      | cons z zs =>
        simp only [lexLt] at hab hbc ⊢
        rcases Nat.lt_trichotomy x y with hxy | hxy | hxy
        · rcases Nat.lt_trichotomy y z with hyz | hyz | hyz
          · simp [Nat.lt_trans hxy hyz]
          · subst hyz
            simp [hxy]
          · simp [hyz, Nat.lt_asymm hyz] at hbc
        · subst hxy
          rcases Nat.lt_trichotomy x z with hyz | hyz | hyz
          · simp [hyz]
          · subst hyz
            simp [Nat.lt_irrefl] at hab hbc ⊢
            exact ih hab hbc
          · simp [hyz, Nat.lt_asymm hyz] at hbc
        · simp [hxy, Nat.lt_asymm hxy] at hab

theorem lexLt_asymm {a b : Bytes} (h : lexLt a b = true) : lexLt b a = false := by
  by_contra hc
  have hba : lexLt b a = true := by
    cases hx : lexLt b a with
    | false => exact absurd hx hc
    | true => rfl
  have := lexLt_trans h hba
  rw [lexLt_irrefl] at this
  exact Bool.noConfusion this

theorem lexLt_antisymm {a b : Bytes} (hab : lexLt a b = false)
    (hba : lexLt b a = false) : a = b := by
  induction a generalizing b with
  | nil =>
    cases b with
    | nil => rfl
    | cons y ys => exact absurd hab (by simp [lexLt])
  | cons x xs ih =>
    cases b with
    | nil => exact absurd hba (by simp [lexLt])
    | cons y ys =>
      simp only [lexLt] at hab hba
      rcases Nat.lt_trichotomy x y with hxy | hxy | hxy
      · simp [hxy] at hab
      · subst hxy
        simp [Nat.lt_irrefl] at hab hba
        rw [ih hab hba]
      · simp [hxy, Nat.lt_asymm hxy] at hba

theorem lexLe_iff {a b : Bytes} : lexLe a b = true ↔ lexLt b a = false := by
  simp [lexLe]

theorem lexLe_false_iff {a b : Bytes} : lexLe a b = false ↔ lexLt b a = true := by
  simp [lexLe]

theorem lexLt_total (a b : Bytes) :
    lexLt a b = true ∨ lexLt b a = true ∨ a = b := by
  induction a generalizing b with
  | nil =>
    cases b with
    | nil => exact Or.inr (Or.inr rfl)
    | cons y ys => exact Or.inl rfl
  | cons x xs ih =>
    cases b with
    | nil => exact Or.inr (Or.inl rfl)
    | cons y ys =>
      by_cases hxy : x < y
      · exact Or.inl (by simp [lexLt, hxy])
      · by_cases hyx : y < x
        · exact Or.inr (Or.inl (by simp [lexLt, hyx]))
        · have hxeq : x = y := Nat.le_antisymm (Nat.le_of_not_lt hyx) (Nat.le_of_not_lt hxy)
          subst hxeq
          rcases ih ys with h | h | h
          · exact Or.inl (by simp [lexLt, h])
          · exact Or.inr (Or.inl (by simp [lexLt, h]))
          · exact Or.inr (Or.inr (by rw [h]))

theorem lexLe_trans {a b c : Bytes} (hab : lexLe a b = true)
    (hbc : lexLe b c = true) : lexLe a c = true := by
  rw [lexLe_iff] at hab hbc ⊢
  by_contra hc
  have hca : lexLt c a = true := by
    cases hx : lexLt c a with
    | false => exact absurd hx hc
    | true => rfl
  rcases lexLt_total a b with h | h | h
  · have := lexLt_trans hca h
    rw [this] at hbc
    exact Bool.noConfusion hbc
  · rw [h] at hab
    exact Bool.noConfusion hab
  · subst h
    rw [hca] at hbc
    exact Bool.noConfusion hbc

theorem lexLe_of_lexLt {a b : Bytes} (h : lexLt a b = true) : lexLe a b = true := by
  rw [lexLe_iff]
  exact lexLt_asymm h

theorem lexLe_refl (a : Bytes) : lexLe a a = true := by
  rw [lexLe_iff]
  exact lexLt_irrefl a

theorem lexLt_of_lexLt_of_lexLe {a b c : Bytes} (hab : lexLt a b = true)
    (hbc : lexLe b c = true) : lexLt a c = true := by
  rw [lexLe_iff] at hbc
  rcases lexLt_total b c with h | h | h
  · exact lexLt_trans hab h
  · rw [h] at hbc
    exact Bool.noConfusion hbc
  · subst h
    exact hab

theorem lexLt_of_lexLe_of_lexLt {a b c : Bytes} (hab : lexLe a b = true)
    (hbc : lexLt b c = true) : lexLt a c = true := by
  rw [lexLe_iff] at hab
  rcases lexLt_total a b with h | h | h
  · exact lexLt_trans h hbc
  · rw [h] at hab
    exact Bool.noConfusion hab
  · subst h
    exact hbc

theorem lexLe_of_startsWith {a p : Bytes} (h : startsWith a p = true) :
    lexLe p a = true := by
  rw [lexLe_iff]
  induction p generalizing a with
  | nil =>
    cases a with
    | nil => rfl
    | cons x as => rfl
  | cons q qs ih =>
    cases a with
    | nil => exact absurd h (by simp [startsWith])
    | cons x as =>
      simp only [startsWith, Bool.and_eq_true, beq_iff_eq] at h
      obtain ⟨hx, hs⟩ := h
      subst hx
      simp only [lexLt, Nat.lt_irrefl, if_false]
      exact ih hs

/-- Keys sharing a byte-prefix form an interval: a key that is ≥ the prefix
but does not carry it lies strictly above every key that does carry it. -/
theorem lexLt_of_startsWith_of_not {p a b : Bytes}
    (hge : lexLt b p = false) (hnb : startsWith b p = false)
    (ha : startsWith a p = true) : lexLt a b = true := by
  induction p generalizing a b with
  | nil => exact absurd hnb (by simp [startsWith])
  | cons q qs ih =>
    cases b with
    | nil => exact absurd hge (by simp [lexLt])
    | cons y bs =>
      cases a with
      | nil => exact absurd ha (by simp [startsWith])
      | cons x as =>
        simp only [startsWith, Bool.and_eq_true, beq_iff_eq] at ha
        obtain ⟨hx, has⟩ := ha
        subst hx
        rcases Nat.lt_trichotomy x y with hxy | hxy | hxy
        · simp [lexLt, hxy]
        · subst hxy
          simp only [lexLt, Nat.lt_irrefl, if_false] at hge ⊢
          simp only [startsWith, beq_self_eq_true, Bool.true_and] at hnb
          exact ih hge hnb has
        · exact absurd hge (by simp [lexLt, hxy])

theorem seekIdx_le_length (k : Bytes) (s : Store) : seekIdx k s ≤ s.length := by
  induction s with
  | nil => exact Nat.le_refl 0
  | cons e rest ih =>
    simp only [seekIdx, List.length_cons]
    by_cases h : lexLe k e.1 = true
    · rw [if_pos h]
      exact Nat.zero_le _
    · rw [if_neg h]
      exact Nat.succ_le_succ ih

theorem seekIdx_lt (k : Bytes) (s : Store) (j : Nat)
    (hlt : j < seekIdx k s) {e : Bytes × Bytes} (he : s.get? j = some e) :
    lexLe k e.1 = false := by
  induction s generalizing j with
  | nil => exact absurd he (by simp)
  | cons a rest ih =>
    simp only [seekIdx] at hlt
    by_cases h : lexLe k a.1 = true
    · rw [if_pos h] at hlt
      exact absurd hlt (Nat.not_lt_zero j)
    · rw [if_neg h] at hlt
      cases j with
      | zero =>
        simp only [List.get?] at he
        cases he
        cases hx : lexLe k e.1 with
        | false => rfl
        | true => exact absurd hx h
      | succ j' =>
        simp only [List.get?] at he
        exact ih j' (Nat.lt_of_succ_lt_succ hlt) he

theorem seekIdx_found (k : Bytes) (s : Store) (h : seekIdx k s < s.length) :
    ∃ e, s.get? (seekIdx k s) = some e ∧ lexLe k e.1 = true := by
  induction s with
  | nil => exact absurd h (Nat.not_lt_zero _)
  | cons a rest ih =>
    by_cases hk : lexLe k a.1 = true
    · refine ⟨a, ?_, hk⟩
      simp only [seekIdx, if_pos hk, List.get?]
    · simp only [seekIdx, if_neg hk, List.length_cons] at h ⊢
      obtain ⟨e, he, hle⟩ := ih (Nat.lt_of_succ_lt_succ h)
      exact ⟨e, by simpa [List.get?] using he, hle⟩

theorem seekIdx_unique (k : Bytes) (s : Store) (m : Nat)
    (hbefore : ∀ j, j < m → ∀ e, s.get? j = some e → lexLe k e.1 = false)
    {em : Bytes × Bytes} (hm : s.get? m = some em)
    (hat : lexLe k em.1 = true) : seekIdx k s = m := by
  have hmlen : m < s.length := List.get?_eq_some.mp hm |>.1
  rcases Nat.lt_trichotomy (seekIdx k s) m with h | h | h
  · obtain ⟨e, he, hle⟩ := seekIdx_found k s (Nat.lt_trans h hmlen)
    have := hbefore (seekIdx k s) h e he
    rw [hle] at this
    exact Bool.noConfusion this
  · exact h
  · have := seekIdx_lt k s m h hm
    rw [hat] at this
    exact Bool.noConfusion this

/-! ### Generic list facts used by the traversal lemmas -/

theorem takeWhile_pred_true {α : Type} {p : α → Bool} (h : ∀ x, p x = true) :
    ∀ l : List α, l.takeWhile p = l := by
  intro l
  induction l with
  | nil => rfl
  | cons a rest ih => rw [List.takeWhile_cons_of_pos (h a), ih]

theorem takeWhile_eq_take {α : Type} (p : α → Bool) :
    ∀ (l : List α) (m : Nat),
      (∀ j e, j ≤ m → l.get? j = some e → p e = true) →
      (∀ e, l.get? (m + 1) = some e → p e = false) →
      l.takeWhile p = l.take (m + 1) := by
  intro l
  induction l with
  | nil => intro m _ _; rfl
  | cons a rest ih =>
    intro m hbelow habove
    have ha : p a = true := hbelow 0 a (Nat.zero_le m) rfl
    rw [List.takeWhile_cons_of_pos ha]
    cases m with
    | zero =>
      have hrest : rest.takeWhile p = [] := by
        cases rest with
        | nil => rfl
        | cons b bs =>
          exact List.takeWhile_cons_of_neg (by
            intro hb
            have := habove b rfl
            rw [hb] at this
            exact Bool.noConfusion this)
      rw [hrest]
      rfl
    | succ m' =>
      have := ih m' (fun j e hj he => hbelow (j + 1) e (Nat.succ_le_succ hj) he)
        (fun e he => habove e he)
      rw [this]
      rfl

theorem getLast?_take_of_get? {α : Type} :
    ∀ (l : List α) (m : Nat) (e : α), l.get? m = some e →
      (l.take (m + 1)).getLast? = some e := by
  intro l
  induction l with
  | nil => intro m e he; exact absurd he (by simp)
  | cons a rest ih =>
    intro m e he
    cases m with
    | zero =>
      simp only [List.get?] at he
      cases he
      rfl
    | succ m' =>
      simp only [List.get?] at he
      have htl := ih m' e he
      have : (a :: rest).take (m' + 2) = a :: rest.take (m' + 1) := rfl
      rw [this]
      cases hx : rest.take (m' + 1) with
      | nil =>
        rw [hx] at htl
        exact absurd htl (by simp)
      | cons b bs =>
        rw [hx] at htl
        rw [← htl]
        rfl

theorem getLast?_eq_get?_pred {α : Type} (l : List α) :
    l.getLast? = l.get? (l.length - 1) := by
  rw [List.getLast?_eq_getElem?, List.get?_eq_getElem?]

/-! ### Relating `valid` to its key predicate, and position arithmetic -/

theorem vKey_set_pos (it : LIter) (p : Int) (r : Bool) (k : Bytes) :
    vKey { it with pos := p } r k = vKey it r k := rfl

theorem vKey_set_start (it : LIter) (b : Bool) (r : Bool) (k : Bytes) :
    vKey { it with start := b } r k = vKey it r k := rfl

theorem valid_eq_vKey (s : Store) (it : LIter) (r : Bool) :
    valid s it r = (rawValid s it.pos && vKey it r (keyAt s it.pos)) := by
  by_cases h : rawValid s it.pos = true
  · rw [h, Bool.true_and]
    unfold valid vKey
    rw [if_pos h]
  · have h' : rawValid s it.pos = false := by
      cases hx : rawValid s it.pos with
      | false => rfl
      | true => exact absurd hx h
    rw [h', Bool.false_and]
    unfold valid
    rw [if_neg h]

theorem rawValid_iff {s : Store} {p : Int} :
    rawValid s p = true ↔ 0 ≤ p ∧ p < (s.length : Int) := by
  simp [rawValid]

theorem rawValid_false_iff {s : Store} {p : Int} :
    rawValid s p = false ↔ p < 0 ∨ (s.length : Int) ≤ p := by
  simp [rawValid]
  omega

theorem entryAt_natCast (s : Store) (j : Nat) :
    entryAt s (j : Int) = (s.get? j).getD ([], []) := by
  simp [entryAt]

theorem entryAt_of_get? {s : Store} {j : Nat} {e : Bytes × Bytes}
    (h : s.get? j = some e) : entryAt s (j : Int) = e := by
  rw [entryAt_natCast, h]
  rfl

theorem keyAt_of_get? {s : Store} {j : Nat} {e : Bytes × Bytes}
    (h : s.get? j = some e) : keyAt s (j : Int) = e.1 := by
  rw [keyAt, entryAt_of_get? h]

theorem run_succ (s : Store) (r : Bool) (fuel : Nat) (it : LIter) :
    run s r (fuel + 1) it =
      if (advance s it r).2 = true then
        entryAt s (advance s it r).1.pos :: run s r fuel (advance s it r).1
      else [] := by
  cases h : advance s it r with
  | mk it2 ok =>
    cases ok with
    | false => simp [run, nextEntry, h]
    | true => simp [run, nextEntry, h]

theorem advance_started (s : Store) (it : LIter) (r : Bool) (h : it.start = false) :
    advance s it r = ({ it with pos := stepRaw it.pos r },
      valid s { it with pos := stepRaw it.pos r } r) := by
  simp [advance, h]

/-! ### The traversal of a started iterator -/

/-- A started forward iterator at index `i` exhausts to the entries after
`i`, cut at the first entry whose key fails the bound predicate. -/
theorem run_fwd_started (s : Store) (fuel : Nat) :
    ∀ (i : Nat) (it : LIter), it.start = false → it.pos = (i : Int) →
      s.length ≤ fuel + (i + 1) →
      run s false fuel it = (s.drop (i + 1)).takeWhile (fun e => vKey it false e.1) := by
  induction fuel with
  | zero =>
    intro i it _ _ hlen
    rw [List.drop_eq_nil_of_le (by omega)]
    rfl
  | succ fuel ih =>
    intro i it hstart hpos hlen
    rw [run_succ, advance_started s it false hstart, hpos]
    have hstep : stepRaw (i : Int) false = ((i + 1 : Nat) : Int) := by
      simp [stepRaw]
    rw [hstep]
    by_cases hlt : i + 1 < s.length
    · obtain ⟨e, he⟩ : ∃ e, s.get? (i + 1) = some e := by
        rcases hx : s.get? (i + 1) with _ | e
        · rw [List.get?_eq_none] at hx
          omega
        · exact ⟨e, rfl⟩
      have hdrop : s.drop (i + 1) = e :: s.drop (i + 2) := by
        rw [List.drop_eq_get_cons hlt]
        have : s.get ⟨i + 1, hlt⟩ = e := by
          rcases List.get?_eq_some.mp he with ⟨h1, h2⟩
          exact h2
        rw [this]
      have hvalid : valid s { it with pos := ((i + 1 : Nat) : Int) } false
          = vKey it false e.1 := by
        rw [valid_eq_vKey]
        have hraw : rawValid s ((i + 1 : Nat) : Int) = true := by
          rw [rawValid_iff]
          constructor
          · exact Int.natCast_nonneg _
          · exact_mod_cast hlt
        rw [hraw, Bool.true_and]
        have : keyAt s ((i + 1 : Nat) : Int) = e.1 := keyAt_of_get? he
        rw [this, vKey_set_pos]
      rw [hvalid, hdrop]
      by_cases hv : vKey it false e.1 = true
      · have htw : List.takeWhile (fun x => vKey it false x.1) (e :: s.drop (i + 2))
            = e :: List.takeWhile (fun x => vKey it false x.1) (s.drop (i + 2)) := by
          rw [List.takeWhile_cons]
          simp [hv]
        rw [hv, if_pos rfl, htw]
        have hrec := ih (i + 1) { it with pos := ((i + 1 : Nat) : Int) } hstart rfl
          (by omega)
        rw [hrec, entryAt_of_get? he]
        rfl
      · have hv' : vKey it false e.1 = false := by
          cases hx : vKey it false e.1 with
          | false => rfl
          | true => exact absurd hx hv
        have htw : List.takeWhile (fun x => vKey it false x.1) (e :: s.drop (i + 2))
            = [] := by
          rw [List.takeWhile_cons]
          simp [hv']
        rw [hv', if_neg (by simp), htw]
    · have hvalid : valid s { it with pos := ((i + 1 : Nat) : Int) } false = false := by
        rw [valid_eq_vKey]
        have : rawValid s ((i + 1 : Nat) : Int) = false := by
          rw [rawValid_false_iff]
          right
          exact_mod_cast Nat.le_of_not_lt hlt
        rw [this, Bool.false_and]
      rw [hvalid, if_neg (by simp), List.drop_eq_nil_of_le (by omega)]
      rfl

/-- A started reverse iterator at index `i` exhausts to the reversal of the
first `i` entries, cut at the first entry whose key fails the bound
predicate. -/
theorem run_rev_started (s : Store) (fuel : Nat) :
    ∀ (i : Nat) (it : LIter), it.start = false → it.pos = (i : Int) →
      i ≤ s.length → i ≤ fuel →
      run s true fuel it = ((s.take i).reverse).takeWhile (fun e => vKey it true e.1) := by
  induction fuel with
  | zero =>
    intro i it _ _ _ hif
    have : i = 0 := Nat.le_zero.mp hif
    subst this
    rfl
  | succ fuel ih =>
    intro i it hstart hpos hin hif
    rw [run_succ, advance_started s it true hstart, hpos]
    cases i with
    | zero =>
      have hvalid : valid s { it with pos := stepRaw ((0 : Nat) : Int) true } true = false := by
        rw [valid_eq_vKey]
        have : rawValid s (stepRaw ((0 : Nat) : Int) true) = false := by
          rw [rawValid_false_iff]
          left
          simp [stepRaw]
        rw [this, Bool.false_and]
      rw [hvalid, if_neg (by simp)]
      rfl
    | succ j =>
      have hstep : stepRaw ((j + 1 : Nat) : Int) true = (j : Int) := by
        simp [stepRaw]
      rw [hstep]
      have hjlt : j < s.length := Nat.lt_of_lt_of_le (Nat.lt_succ_self j) hin
      obtain ⟨e, he⟩ : ∃ e, s.get? j = some e := by
        rcases hx : s.get? j with _ | e
        · rw [List.get?_eq_none] at hx
          omega
        · exact ⟨e, rfl⟩
      have he2 : s[j]? = some e := by
        rw [← List.get?_eq_getElem?]
        exact he
      have htake : (s.take (j + 1)).reverse = e :: (s.take j).reverse := by
        rw [List.take_succ, he2]
        simp
      have hvalid : valid s { it with pos := (j : Int) } true = vKey it true e.1 := by
        rw [valid_eq_vKey]
        have hraw : rawValid s ((j : Nat) : Int) = true := by
          rw [rawValid_iff]
          exact ⟨Int.natCast_nonneg _, by exact_mod_cast hjlt⟩
        rw [hraw, Bool.true_and, keyAt_of_get? he, vKey_set_pos]
      rw [hvalid, htake]
      by_cases hv : vKey it true e.1 = true
      · have htw : List.takeWhile (fun x => vKey it true x.1) (e :: (s.take j).reverse)
            = e :: List.takeWhile (fun x => vKey it true x.1) ((s.take j).reverse) := by
          rw [List.takeWhile_cons]
          simp [hv]
        rw [hv, if_pos rfl, htw]
        have hrec := ih j { it with pos := (j : Int) } hstart rfl
          (Nat.le_of_lt hjlt) (Nat.le_of_succ_le_succ hif)
        rw [hrec, entryAt_of_get? he]
        rfl
      · have hv' : vKey it true e.1 = false := by
          cases hx : vKey it true e.1 with
          | false => rfl
          | true => exact absurd hx hv
        have htw : List.takeWhile (fun x => vKey it true x.1) (e :: (s.take j).reverse)
            = [] := by
          rw [List.takeWhile_cons]
          simp [hv']
        rw [hv', if_neg (by simp), htw]

/-! ### The first pull of a fresh iterator, and full traversals -/

theorem advance_fresh_nofrom (s : Store) (it : LIter) (r : Bool)
    (hstart : it.start = true) (hpfx : it.pfxK = none) (hfrom : it.fromK = none) :
    advance s it r = ({ it with start := false }, valid s { it with start := false } r) := by
  simp [advance, hstart, hpfx, hfrom]

theorem advance_fresh_pfx (s : Store) (it : LIter) (r : Bool) (p : Bytes)
    (hstart : it.start = true) (hpfx : it.pfxK = some p) :
    advance s it r = ({ it with pos := seekPos s p, start := false },
      valid s { it with pos := seekPos s p, start := false } r) := by
  simp [advance, hstart, hpfx]

/-- Exhausting a fresh unbounded forward iterator yields the whole store. -/
theorem collect_fwd_unbounded (s : Store) : collect s false newIter = s := by
  unfold collect
  rw [run_succ, advance_fresh_nofrom s newIter false rfl rfl rfl]
  cases s with
  | nil =>
    have hval : valid [] { newIter with start := false } false = false := by
      rw [valid_eq_vKey]
      have : rawValid [] ({ newIter with start := false }).pos = false := by
        rw [rawValid_false_iff]
        right
        simp [newIter]
      rw [this, Bool.false_and]
    rw [hval, if_neg (by simp)]
  | cons a rest =>
    have hval : valid (a :: rest) { newIter with start := false } false = true := by
      rw [valid_eq_vKey]
      have hraw : rawValid (a :: rest) ({ newIter with start := false }).pos = true := by
        rw [rawValid_iff]
        exact ⟨by simp [newIter], by simp [newIter]⟩
      rw [hraw, Bool.true_and]
      rfl
    rw [hval, if_pos rfl]
    show entryAt (a :: rest) (0 : Int)
        :: run (a :: rest) false (a :: rest).length (⟨0, false, none, none, none⟩ : LIter)
        = a :: rest
    rw [run_fwd_started (a :: rest) (a :: rest).length 0
      ⟨0, false, none, none, none⟩ rfl rfl (by simp)]
    have htw : List.takeWhile
        (fun e : Bytes × Bytes => vKey (⟨0, false, none, none, none⟩ : LIter) false e.1)
        ((a :: rest).drop (0 + 1)) = (a :: rest).drop (0 + 1) :=
      takeWhile_pred_true (fun x => rfl) _
    rw [htw]
    rfl

/-- Exhausting the reversal of a fresh unbounded iterator yields the
whole store backwards. -/
theorem collect_rev_unbounded (s : Store) :
    collect s true (reverseIt s newIter false) = s.reverse := by
  unfold collect
  have hrev : reverseIt s newIter false
      = { newIter with pos := (s.length : Int) - 1 } := by
    simp [reverseIt, newIter]
  rw [hrev, run_succ,
    advance_fresh_nofrom s { newIter with pos := (s.length : Int) - 1 } true rfl rfl rfl]
  cases s with
  | nil =>
    have hval : valid [] { { newIter with pos := (([] : Store).length : Int) - 1 }
        with start := false } true = false := by
      rw [valid_eq_vKey]
      have : rawValid []
          ({ { newIter with pos := (([] : Store).length : Int) - 1 }
            with start := false }).pos = false := by
        rw [rawValid_false_iff]
        left
        simp [newIter]
      rw [this, Bool.false_and]
    rw [hval, if_neg (by simp)]
    rfl
  | cons a rest =>
    have hlen : 1 ≤ (a :: rest).length := by simp
    have hcast : ((a :: rest).length : Int) - 1 = (((a :: rest).length - 1 : Nat) : Int) := by
      omega
    obtain ⟨e, he⟩ : ∃ e, (a :: rest).get? ((a :: rest).length - 1) = some e := by
      rcases hx : (a :: rest).get? ((a :: rest).length - 1) with _ | e
      · rw [List.get?_eq_none] at hx
        simp at hx
      · exact ⟨e, rfl⟩
    have hval : valid (a :: rest) { { newIter with pos := ((a :: rest).length : Int) - 1 }
        with start := false } true = true := by
      rw [valid_eq_vKey]
      have hraw : rawValid (a :: rest)
          ({ { newIter with pos := ((a :: rest).length : Int) - 1 }
            with start := false }).pos = true := by
        rw [rawValid_iff]
        constructor
        · show (0 : Int) ≤ ((a :: rest).length : Int) - 1
          have : (1 : Int) ≤ ((a :: rest).length : Int) := by exact_mod_cast hlen
          omega
        · show ((a :: rest).length : Int) - 1 < ((a :: rest).length : Int)
          omega
      rw [hraw, Bool.true_and]
      rfl
    rw [hval, if_pos rfl]
    show entryAt (a :: rest) (((a :: rest).length : Int) - 1)
        :: run (a :: rest) true (a :: rest).length
          (⟨((a :: rest).length : Int) - 1, false, none, none, none⟩ : LIter)
        = (a :: rest).reverse
    rw [run_rev_started (a :: rest) (a :: rest).length ((a :: rest).length - 1)
      (⟨((a :: rest).length : Int) - 1, false, none, none, none⟩ : LIter) rfl hcast
      (by omega) (by omega)]
    have htw : List.takeWhile
        (fun e : Bytes × Bytes => vKey
          (⟨((a :: rest).length : Int) - 1, false, none, none, none⟩ : LIter) true e.1)
        (((a :: rest).take ((a :: rest).length - 1)).reverse)
        = ((a :: rest).take ((a :: rest).length - 1)).reverse :=
      takeWhile_pred_true (fun x => rfl) _
    rw [htw]
    have hent : entryAt (a :: rest) (((a :: rest).length : Int) - 1) = e := by
      rw [hcast]
      exact entryAt_of_get? he
    rw [hent]
    have hdropLast : (a :: rest).drop ((a :: rest).length - 1) = [e] := by
      have hlt : (a :: rest).length - 1 < (a :: rest).length := by omega
      rw [List.drop_eq_get_cons hlt]
      have h1 : (a :: rest).get ⟨(a :: rest).length - 1, hlt⟩ = e := by
        rcases List.get?_eq_some.mp he with ⟨hh, h2⟩
        exact h2
      have h2 : (a :: rest).drop ((a :: rest).length - 1 + 1) = [] :=
        List.drop_eq_nil_of_le (by omega)
      rw [h1, h2]
    conv_rhs => rw [← List.take_append_drop ((a :: rest).length - 1) (a :: rest)]
    rw [List.reverse_append, hdropLast]
    rfl

/-- Exhausting a fresh forward iterator with only a `to` bound yields the
longest key-wise `≤ to` initial segment of the store. -/
theorem collect_fwd_toOnly (s : Store) (t : Bytes) :
    collect s false (withTo newIter t) = s.takeWhile (fun e => lexLe e.1 t) := by
  unfold collect
  rw [run_succ, advance_fresh_nofrom s (withTo newIter t) false rfl rfl rfl]
  cases s with
  | nil =>
    have hval : valid [] { withTo newIter t with start := false } false = false := by
      rw [valid_eq_vKey]
      have : rawValid [] ({ withTo newIter t with start := false }).pos = false := by
        rw [rawValid_false_iff]
        right
        simp [withTo, newIter]
      rw [this, Bool.false_and]
    rw [hval, if_neg (by simp)]
    rfl
  | cons a rest =>
    have hg : (a :: rest).get? 0 = some a := rfl
    have hval : valid (a :: rest) { withTo newIter t with start := false } false
        = lexLe a.1 t := by
      rw [valid_eq_vKey]
      have hraw : rawValid (a :: rest) ({ withTo newIter t with start := false }).pos
          = true := by
        rw [rawValid_iff]
        exact ⟨by simp [withTo, newIter], by simp [withTo, newIter]⟩
      rw [hraw, Bool.true_and]
      have hk : keyAt (a :: rest) ({ withTo newIter t with start := false }).pos = a.1 :=
        keyAt_of_get? hg
      rw [hk]
      rfl
    rw [hval]
    by_cases hv : lexLe a.1 t = true
    · rw [hv, if_pos rfl]
      show entryAt (a :: rest) (0 : Int)
          :: run (a :: rest) false (a :: rest).length
            (⟨0, false, none, some t, none⟩ : LIter)
          = (a :: rest).takeWhile (fun e => lexLe e.1 t)
      rw [run_fwd_started (a :: rest) (a :: rest).length 0
        (⟨0, false, none, some t, none⟩ : LIter) rfl rfl (by simp)]
      have htw : List.takeWhile (fun e : Bytes × Bytes => lexLe e.1 t) (a :: rest)
          = a :: List.takeWhile (fun e : Bytes × Bytes => lexLe e.1 t) rest := by
        rw [List.takeWhile_cons]
        simp [hv]
      rw [htw]
      rfl
    · have hv2 : lexLe a.1 t = false := by
        cases hx : lexLe a.1 t with
        | false => rfl
        | true => exact absurd hx hv
      have htw : List.takeWhile (fun e : Bytes × Bytes => lexLe e.1 t) (a :: rest)
          = [] := by
        rw [List.takeWhile_cons]
        simp [hv2]
      rw [hv2, if_neg (by simp), htw]

/-! ### Sorted access and the first pull -/

theorem sorted_get?_lt {s : Store} (hs : sortedStore s) {i j : Nat} (hij : i < j)
    {a b : Bytes × Bytes} (ha : s.get? i = some a) (hb : s.get? j = some b) :
    lexLt a.1 b.1 = true := by
  rcases List.get?_eq_some.mp ha with ⟨hi, hga⟩
  rcases List.get?_eq_some.mp hb with ⟨hj, hgb⟩
  have h := List.pairwise_iff_get.mp hs ⟨i, hi⟩ ⟨j, hj⟩ hij
  rw [hga, hgb] at h
  exact h

theorem nextEntry_fst (s : Store) (it : LIter) (r : Bool) :
    (nextEntry s it r).1 =
      if (advance s it r).2 = true then some (entryAt s (advance s it r).1.pos)
      else none := by
  cases h : advance s it r with
  | mk a b => cases b <;> simp [nextEntry, h]

/-! ### Claim theorems -/

/-- Claim C1 (code_bug evidence): the reversed value-only projection
(`RevValueIterator`) is instantiated with the `key` item method
(line 532), so exhausting it yields the KEYS [2], [1] on a store whose
values are [10], [20] — not the reversal of the forward value
projection, contradicting the struct doc "Returns just the value." -/
theorem c1_revvalue_yields_keys :
    collectRevValueIter storeKV (reverseIt storeKV newIter false) = [[2], [1]]
    ∧ collectValuesFwd storeKV newIter = [[10], [20]]
    ∧ collectRevValueIter storeKV (reverseIt storeKV newIter false)
        ≠ (collectValuesFwd storeKV newIter).reverse := by decide

/-- Claim C3 (counterexample): with store keys {1,2}, `to([3]).reverse()`
does NOT yield (2,2),(1,1) as the claim states. -/
theorem c3_counterexample :
    collect storeTwo true (reverseIt storeTwo (withTo newIter [3]) false)
      ≠ [([2], [2]), ([1], [1])] := by decide

/-- Claim C3 (amended): with store keys {1,2}, `to([3]).reverse()` yields
no entries at all: `reverse()` repositions the raw cursor to the raw
engine-last position (index 1, key [2]) — it never seeks to `to` — and
the reverse validity check requires key ≥ [3], which no store key
satisfies. -/
theorem c3_to_reverse_empty :
    collect storeTwo true (reverseIt storeTwo (withTo newIter [3]) false) = []
    ∧ (reverseIt storeTwo (withTo newIter [3]) false).pos
        = (storeTwo.length : Int) - 1
    ∧ valid storeTwo (⟨(storeTwo.length : Int) - 1, false, none, some [3], none⟩ : LIter)
        true = false := by decide

/-- Claim C4 (counterexample): a state whose validity check fails while
the raw cursor sits on a real entry; `key()`/`value()` nevertheless
return that entry's bytes — there is no fail-fast precondition check. -/
theorem c4_counterexample :
    valid storeKV itBelowFrom false = false
    ∧ keyFn storeKV itBelowFrom = [1]
    ∧ valueFn storeKV itBelowFrom = [10]
    ∧ keyFn storeKV itBelowFrom ≠ [] := by decide

/-- Claim C4 (amended): `key()`/`value()`/`entry()` perform no validity
precondition check: whenever the raw cursor is on an entry — even when
the iterator-level validity check is false — they return exactly that
stored entry's bytes instead of failing. -/
theorem c4_extraction_unchecked (s : Store) (it : LIter) (r : Bool)
    (hinvalid : valid s it r = false) (hraw : rawValid s it.pos = true) :
    keyFn s it = keyAt s it.pos ∧ valueFn s it = valueAt s it.pos
    ∧ entryFn s it = entryAt s it.pos ∧ entryFn s it ∈ s := by
  refine ⟨rfl, rfl, rfl, ?_⟩
  rcases rawValid_iff.mp hraw with ⟨h0, hlt⟩
  have hlt2 : it.pos.toNat < s.length := by omega
  obtain ⟨e, he⟩ : ∃ e, s.get? it.pos.toNat = some e := by
    rcases hx : s.get? it.pos.toNat with _ | e
    · rw [List.get?_eq_none] at hx
      omega
    · exact ⟨e, rfl⟩
  have : entryFn s it = e := by
    show (keyAt s it.pos, valueAt s it.pos) = e
    rw [keyAt, valueAt]
    have : entryAt s it.pos = e := by
      unfold entryAt
      rw [if_pos h0, he]
      rfl
    rw [this]
  rw [this]
  exact List.get?_mem he

theorem c4_witness : entryFn storeKV itBelowFrom ∈ storeKV :=
  (c4_extraction_unchecked storeKV itBelowFrom false (by decide) (by decide)).2.2.2

/-- Claim C7: `reverse()` hands the same bounds and the same traversal
flag to the opposite-direction iterator; a not-yet-started iterator is
repositioned to the opposite initial edge (forward→reverse to the raw
last position, reverse→forward to the first), while a started iterator
keeps its cursor position unchanged. -/
theorem c7_reverse_state (s : Store) (it : LIter) (c : Bool) :
    (reverseIt s it c).fromK = it.fromK ∧ (reverseIt s it c).toK = it.toK
    ∧ (reverseIt s it c).pfxK = it.pfxK ∧ (reverseIt s it c).start = it.start
    ∧ (it.start = true →
        (reverseIt s it c).pos = (if c then 0 else (s.length : Int) - 1))
    ∧ (it.start = false → (reverseIt s it c).pos = it.pos) := by
  by_cases h : it.start = true
  · simp [reverseIt, h]
  · have h2 : it.start = false := by
      cases hx : it.start with
      | false => rfl
      | true => exact absurd hx h
    simp [reverseIt, h2]

theorem c7_witness : (reverseIt storeTwo newIter false).pos
    = (storeTwo.length : Int) - 1 := by
  have h := (c7_reverse_state storeTwo newIter false).2.2.2.2.1 rfl
  simpa using h

/-- Claim C8: on any fixed store snapshot, reversing a fresh unbounded
not-yet-advanced iterator and exhausting it yields exactly the reversal
of what exhausting the forward iterator yields. -/
theorem c8_reverse_unbounded_is_reversal (s : Store) :
    collect s true (reverseIt s newIter false) = (collect s false newIter).reverse := by
  rw [collect_fwd_unbounded, collect_rev_unbounded]

/-- Claim C9: `last()` on the pair iterator and on the key/value
projections returns `Some(...)` unconditionally — for every store
(including the empty one) and every iterator state. -/
theorem c9_last_always_some (s : Store) (it : LIter) :
    (lastEntry s it).isSome = true ∧ (lastKey s it).isSome = true
    ∧ (lastValue s it).isSome = true :=
  ⟨rfl, rfl, rfl⟩

/-- Claim C10: the traversal flag is monotone — after any `advance` the
iterator is started, and bound attachment and `reverse()` never reset the
flag; moreover every advance of a started iterator is exactly one raw
cursor step (no re-seek). -/
theorem c10_started_monotone :
    (∀ (s : Store) (it : LIter) (r : Bool), (advance s it r).1.start = false)
    ∧ (∀ (it : LIter) (k : Bytes), (withFrom it k).start = it.start
        ∧ (withTo it k).start = it.start ∧ (withPfx it k).start = it.start)
    ∧ (∀ (s : Store) (it : LIter) (c : Bool), (reverseIt s it c).start = it.start)
    ∧ (∀ (s : Store) (it : LIter) (r : Bool), it.start = false →
        (advance s it r).1 = { it with pos := stepRaw it.pos r }
        ∧ (advance s it r).2 = valid s { it with pos := stepRaw it.pos r } r) := by
  refine ⟨?_, ?_, ?_, ?_⟩
  · intro s it r
    by_cases h : it.start = true
    · simp [advance, h]
    · have h2 : it.start = false := by
        cases hx : it.start with
        | false => rfl
        | true => exact absurd hx h
      simp [advance, h2]
  · intro it k
    exact ⟨rfl, rfl, rfl⟩
  · intro s it c
    by_cases h : it.start = true
    · simp [reverseIt, h]
    · have h2 : it.start = false := by
        cases hx : it.start with
        | false => rfl
        | true => exact absurd hx h
      simp [reverseIt, h2]
  · intro s it r h
    rw [advance_started s it r h]
    exact ⟨rfl, rfl⟩

theorem c10_witness :
    (advance storeKV itBelowFrom false).1
      = { itBelowFrom with pos := stepRaw itBelowFrom.pos false } :=
  (c10_started_monotone.2.2.2 storeKV itBelowFrom false rfl).1

/-- Claim C2 (counterexample): with store keys {1,2,4} and `to([3])`
(the `to` key absent), `last()` seeks to `to` and lands on key 4 —
outside the bound — while the exhaustive forward traversal's final
element is (2,2). -/
theorem c2_counterexample :
    lastEntry store124 (withTo newIter [3]) = some ([4], [4])
    ∧ (collect store124 false (withTo newIter [3])).getLast? = some ([2], [2])
    ∧ lastEntry store124 (withTo newIter [3])
        ≠ (collect store124 false (withTo newIter [3])).getLast? := by decide

/-- Claim C2 (amended): `last()` equals the final element of the
exhaustive forward traversal in the cases the repository exercises:
when only a `to` bound is set and the `to` key is PRESENT in the store,
and when the iterator is unbounded over a nonempty store.  (When `to` is
absent from the store, `last()` returns the entry at the first key ≥ `to`,
which lies outside the bound — see the counterexample.) -/
theorem c2_last_amended :
    (∀ (s : Store) (m : Nat) (em : Bytes × Bytes),
      sortedStore s → s.get? m = some em →
      lastEntry s (withTo newIter em.1)
        = (collect s false (withTo newIter em.1)).getLast?)
    ∧ (∀ s : Store, s ≠ [] →
      lastEntry s newIter = (collect s false newIter).getLast?) := by
  constructor
  · intro s m em hs hm
    have hseek : seekIdx em.1 s = m := by
      apply seekIdx_unique em.1 s m ?_ hm (lexLe_refl em.1)
      intro j hj e he
      rw [lexLe_false_iff]
      exact sorted_get?_lt hs hj he hm
    have hlast : lastEntry s (withTo newIter em.1) = some em := by
      have hstl : seekToLastPos s (withTo newIter em.1) = ((m : Nat) : Int) := by
        show seekPos s em.1 = ((m : Nat) : Int)
        unfold seekPos
        rw [hseek]
      show some (keyAt s (seekToLastPos s (withTo newIter em.1)),
        valueAt s (seekToLastPos s (withTo newIter em.1))) = some em
      rw [hstl, keyAt, valueAt, entryAt_of_get? hm]
    have htrav : collect s false (withTo newIter em.1) = s.take (m + 1) := by
      rw [collect_fwd_toOnly]
      apply takeWhile_eq_take
      · intro j e hj he
        rcases Nat.lt_or_ge j m with hlt | hge
        · exact lexLe_of_lexLt (sorted_get?_lt hs hlt he hm)
        · have : j = m := Nat.le_antisymm hj hge
          subst this
          rw [hm] at he
          cases he
          exact lexLe_refl _
      · intro e he
        rw [lexLe_false_iff]
        exact sorted_get?_lt hs (Nat.lt_succ_self m) hm he
    rw [hlast, htrav, getLast?_take_of_get? s m em hm]
  · intro s hne
    have hlen : 1 ≤ s.length := by
      cases s with
      | nil => exact absurd rfl hne
      | cons a rest => simp
    obtain ⟨e, he⟩ : ∃ e, s.get? (s.length - 1) = some e := by
      rcases hx : s.get? (s.length - 1) with _ | e
      · rw [List.get?_eq_none] at hx
        omega
      · exact ⟨e, rfl⟩
    have hlast : lastEntry s newIter = some e := by
      have hstl : seekToLastPos s newIter = ((s.length - 1 : Nat) : Int) := by
        show (s.length : Int) - 1 = ((s.length - 1 : Nat) : Int)
        omega
      show some (keyAt s (seekToLastPos s newIter),
        valueAt s (seekToLastPos s newIter)) = some e
      rw [hstl, keyAt, valueAt, entryAt_of_get? he]
    rw [hlast, collect_fwd_unbounded, getLast?_eq_get?_pred, he]

theorem c2_witness :
    lastEntry storeTwo (withTo newIter [2])
      = (collect storeTwo false (withTo newIter [2])).getLast? :=
  c2_last_amended.1 storeTwo 1 ([2], [2]) (by decide) (by decide)

/-- Claim C5: with only a `from` bound, the first pulled entry of a
forward iterator is the entry with the smallest key ≥ `from`; the first
pulled entry of the reversed iterator is the entry with the largest
key ≤ `from` (the first advance seeks to `from` and, when the landed
position fails the reverse validity check, steps back exactly once);
and spec Scenario B holds: keys {1,2,3,4,10}, `from([5]).to([2]).reverse()`
yields (4,4),(3,3),(2,2), then is exhausted. -/
theorem c5_from_bound_first_yield :
    (∀ (s : Store) (k : Bytes) (e : Bytes × Bytes), sortedStore s →
      (nextEntry s (withFrom newIter k) false).1 = some e →
      e ∈ s ∧ lexLe k e.1 = true ∧
        ∀ e2 ∈ s, lexLe k e2.1 = true → lexLe e.1 e2.1 = true)
    ∧ (∀ (s : Store) (k : Bytes) (e : Bytes × Bytes), sortedStore s →
      (nextEntry s (reverseIt s (withFrom newIter k) false) true).1 = some e →
      e ∈ s ∧ lexLe e.1 k = true ∧
        ∀ e2 ∈ s, lexLe e2.1 k = true → lexLe e2.1 e.1 = true)
    ∧ collect storeB true (reverseIt storeB (withTo (withFrom newIter [5]) [2]) false)
        = [([4], [4]), ([3], [3]), ([2], [2])] := by
  refine ⟨?_, ?_, by decide⟩
  · intro s k e hs hne
    have hadv : advance s (withFrom newIter k) false
        = ((⟨seekPos s k, false, some k, none, none⟩ : LIter),
          valid s (⟨seekPos s k, false, some k, none, none⟩ : LIter) false) := by
      simp [advance, withFrom, newIter]
    rw [nextEntry_fst] at hne
    simp only [hadv] at hne
    by_cases hok : valid s (⟨seekPos s k, false, some k, none, none⟩ : LIter) false = true
    · rw [if_pos hok] at hne
      injection hne with hinj
      rw [valid_eq_vKey] at hok
      simp only [Bool.and_eq_true] at hok
      obtain ⟨hraw, _⟩ := hok
      rcases rawValid_iff.mp hraw with ⟨_, hltI⟩
      have hlt : seekIdx k s < s.length := by
        unfold seekPos at hltI
        exact_mod_cast hltI
      obtain ⟨e0, he0, hke0⟩ := seekIdx_found k s hlt
      have hee : e = e0 := by
        rw [← hinj]
        show entryAt s (seekPos s k) = e0
        exact entryAt_of_get? he0
      subst hee
      refine ⟨List.get?_mem he0, hke0, ?_⟩
      intro e2 he2 hk2
      obtain ⟨j, hj⟩ := List.mem_iff_get?.mp he2
      rcases Nat.lt_trichotomy j (seekIdx k s) with hcmp | hcmp | hcmp
      · have := seekIdx_lt k s j hcmp hj
        rw [hk2] at this
        exact Bool.noConfusion this
      · subst hcmp
        rw [he0] at hj
        cases hj
        exact lexLe_refl _
      · exact lexLe_of_lexLt (sorted_get?_lt hs hcmp he0 hj)
    · rw [if_neg hok] at hne
      exact absurd hne (by simp)
  · intro s k e hs hne
    have hrv : reverseIt s (withFrom newIter k) false
        = (⟨(s.length : Int) - 1, true, some k, none, none⟩ : LIter) := by
      simp [reverseIt, withFrom, newIter]
    rw [hrv] at hne
    by_cases hv : valid s (⟨seekPos s k, true, some k, none, none⟩ : LIter) true = true
    · have hadv : advance s (⟨(s.length : Int) - 1, true, some k, none, none⟩ : LIter) true
          = ((⟨seekPos s k, false, some k, none, none⟩ : LIter),
            valid s (⟨seekPos s k, false, some k, none, none⟩ : LIter) true) := by
        simp [advance, hv]
      rw [nextEntry_fst] at hne
      simp only [hadv] at hne
      have hok : valid s (⟨seekPos s k, false, some k, none, none⟩ : LIter) true = true := hv
      rw [if_pos hok] at hne
      injection hne with hinj
      rw [valid_eq_vKey] at hv
      simp only [Bool.and_eq_true] at hv
      obtain ⟨hraw, hkey⟩ := hv
      rcases rawValid_iff.mp hraw with ⟨_, hltI⟩
      have hlt : seekIdx k s < s.length := by
        unfold seekPos at hltI
        exact_mod_cast hltI
      obtain ⟨e0, he0, hke0⟩ := seekIdx_found k s hlt
      have hee : e = e0 := by
        rw [← hinj]
        show entryAt s (seekPos s k) = e0
        exact entryAt_of_get? he0
      subst hee
      have hlek : lexLe e.1 k = true := by
        have hkAt : keyAt s ((⟨seekPos s k, true, some k, none, none⟩ : LIter)).pos
            = e.1 := by
          show keyAt s (seekPos s k) = e.1
          exact keyAt_of_get? he0
        simp only [vKey, hkAt] at hkey
        simpa using hkey
      refine ⟨List.get?_mem he0, hlek, ?_⟩
      intro e2 _ hk2
      exact lexLe_trans hk2 hke0
    · have hv2 : valid s (⟨seekPos s k, true, some k, none, none⟩ : LIter) true = false := by
        cases hx : valid s (⟨seekPos s k, true, some k, none, none⟩ : LIter) true with
        | false => rfl
        | true => exact absurd hx hv
      have hadv : advance s (⟨(s.length : Int) - 1, true, some k, none, none⟩ : LIter) true
          = ((⟨seekPos s k - 1, false, some k, none, none⟩ : LIter),
            valid s (⟨seekPos s k - 1, false, some k, none, none⟩ : LIter) true) := by
        simp [advance, hv2, stepRaw]
      rw [nextEntry_fst] at hne
      simp only [hadv] at hne
      by_cases hok : valid s (⟨seekPos s k - 1, false, some k, none, none⟩ : LIter) true = true
      · rw [if_pos hok] at hne
        injection hne with hinj
        rw [valid_eq_vKey] at hok
        simp only [Bool.and_eq_true] at hok
        obtain ⟨hraw, hkey⟩ := hok
        rcases rawValid_iff.mp hraw with ⟨h0, hltI⟩
        have hi1 : 1 ≤ seekIdx k s := by
          unfold seekPos at h0
          omega
        have hcast : seekPos s k - 1 = ((seekIdx k s - 1 : Nat) : Int) := by
          unfold seekPos
          omega
        have hjlt : seekIdx k s - 1 < s.length := by
          unfold seekPos at hltI
          omega
        obtain ⟨e0, he0⟩ : ∃ e0, s.get? (seekIdx k s - 1) = some e0 := by
          rcases hx : s.get? (seekIdx k s - 1) with _ | e0
          · rw [List.get?_eq_none] at hx
            omega
          · exact ⟨e0, rfl⟩
        have hee : e = e0 := by
          rw [← hinj]
          show entryAt s (seekPos s k - 1) = e0
          rw [hcast]
          exact entryAt_of_get? he0
        subst hee
        have hlek : lexLe e.1 k = true := by
          have hkAt : keyAt s ((⟨seekPos s k - 1, false, some k, none, none⟩ : LIter)).pos
              = e.1 := by
            show keyAt s (seekPos s k - 1) = e.1
            rw [hcast]
            exact keyAt_of_get? he0
          simp only [vKey, hkAt] at hkey
          simpa using hkey
        refine ⟨List.get?_mem he0, hlek, ?_⟩
        intro e2 he2 hk2
        obtain ⟨j, hj⟩ := List.mem_iff_get?.mp he2
        have hjn : j < s.length := (List.get?_eq_some.mp hj).1
        have hjlt0 : j < seekIdx k s := by
          by_contra hge
          have hge2 : seekIdx k s ≤ j := Nat.le_of_not_lt hge
          have hi0n : seekIdx k s < s.length := Nat.lt_of_le_of_lt hge2 hjn
          obtain ⟨e1, he1, hke1⟩ := seekIdx_found k s hi0n
          rcases Nat.eq_or_lt_of_le hge2 with heq | hlt2
          · rw [← heq] at hj
            rw [he1] at hj
            cases hj
            have heqk : e2.1 = k := by
              apply lexLt_antisymm
              · rw [← lexLe_iff]
                exact hke1
              · rw [← lexLe_iff]
                exact hk2
            rw [valid_eq_vKey] at hv2
            have hraw1 : rawValid s ((⟨seekPos s k, true, some k, none, none⟩ : LIter)).pos
                = true := by
              show rawValid s (seekPos s k) = true
              rw [rawValid_iff]
              unfold seekPos
              constructor
              · exact Int.natCast_nonneg _
              · exact_mod_cast hi0n
            rw [hraw1, Bool.true_and] at hv2
            have hkAt1 : keyAt s ((⟨seekPos s k, true, some k, none, none⟩ : LIter)).pos
                = e2.1 := by
              show keyAt s (seekPos s k) = e2.1
              exact keyAt_of_get? he1
            simp only [vKey, hkAt1] at hv2
            simp [heqk, lexLe_refl] at hv2
          · have hlt3 : lexLt e1.1 e2.1 = true := sorted_get?_lt hs hlt2 he1 hj
            have : lexLt k e2.1 = true := lexLt_of_lexLe_of_lexLt hke1 hlt3
            rw [lexLe_iff] at hk2
            rw [hk2] at this
            exact Bool.noConfusion this
        rcases Nat.lt_trichotomy j (seekIdx k s - 1) with hcmp | hcmp | hcmp
        · exact lexLe_of_lexLt (sorted_get?_lt hs hcmp hj he0)
        · subst hcmp
          rw [he0] at hj
          cases hj
          exact lexLe_refl _
        · omega
      · rw [if_neg hok] at hne
        exact absurd hne (by simp)

theorem c5_witness : (([10], [10]) : Bytes × Bytes) ∈ storeB :=
  (c5_from_bound_first_yield.1 storeB [5] ([10], [10]) (by decide) (by decide)).1

/-- In a sorted store suffix whose keys are all ≥ the prefix, cutting at
the first non-prefixed key loses nothing: prefixed keys form an initial
run there. -/
theorem takeWhile_eq_filter_of_sorted (p : Bytes) :
    ∀ l : Store, List.Pairwise (fun a b => lexLt a.1 b.1 = true) l →
      (∀ x ∈ l, lexLe p x.1 = true) →
      l.takeWhile (fun e => startsWith e.1 p) = l.filter (fun e => startsWith e.1 p) := by
  intro l
  induction l with
  | nil => intro _ _; rfl
  | cons a rest ih =>
    intro hp hge
    rcases List.pairwise_cons.mp hp with ⟨hhead, htail⟩
    by_cases hsw : startsWith a.1 p = true
    · have h1 : List.takeWhile (fun e : Bytes × Bytes => startsWith e.1 p) (a :: rest)
          = a :: List.takeWhile (fun e : Bytes × Bytes => startsWith e.1 p) rest := by
        rw [List.takeWhile_cons]
        simp [hsw]
      have h2 : List.filter (fun e : Bytes × Bytes => startsWith e.1 p) (a :: rest)
          = a :: List.filter (fun e : Bytes × Bytes => startsWith e.1 p) rest := by
        rw [List.filter_cons]
        simp [hsw]
      rw [h1, h2, ih htail (fun x hx => hge x (List.mem_cons_of_mem a hx))]
    · have hsw2 : startsWith a.1 p = false := by
        cases hx : startsWith a.1 p with
        | false => rfl
        | true => exact absurd hx hsw
      have h1 : List.takeWhile (fun e : Bytes × Bytes => startsWith e.1 p) (a :: rest)
          = [] := by
        rw [List.takeWhile_cons]
        simp [hsw2]
      have h2 : List.filter (fun e : Bytes × Bytes => startsWith e.1 p) (a :: rest)
          = List.filter (fun e : Bytes × Bytes => startsWith e.1 p) rest := by
        rw [List.filter_cons]
        simp [hsw2]
      have h3 : List.filter (fun e : Bytes × Bytes => startsWith e.1 p) rest = [] := by
        rw [List.filter_eq_nil_iff]
        intro y hy hswy
        have hya : lexLt y.1 a.1 = true := by
          apply lexLt_of_startsWith_of_not ?_ hsw2 hswy
          rw [← lexLe_iff]
          exact hge a (List.mem_cons_self a rest)
        have hay : lexLt a.1 y.1 = true := hhead y hy
        have := lexLt_asymm hay
        rw [hya] at this
        exact Bool.noConfusion this
      rw [h1, h2, h3]

/-- Claim C6 (counterexample): with prefixed keys {[1],[1,1]} and key [2],
the REVERSED prefix iterator seeks to the prefix (landing on the smallest
prefixed key) and then steps downward out of the prefix run, yielding
only ([1],[5]) — not the prefixed entries in descending order. -/
theorem c6_counterexample :
    collect storePfx true (reverseIt storePfx (withPfx newIter [1]) false)
      = [([1], [5])]
    ∧ (storePfx.filter (fun e => startsWith e.1 [1])).reverse
      = [([1, 1], [6]), ([1], [5])]
    ∧ collect storePfx true (reverseIt storePfx (withPfx newIter [1]) false)
      ≠ (storePfx.filter (fun e => startsWith e.1 [1])).reverse := by decide

/-- Claim C6 (amended): when a prefix bound is set, a FORWARD iterator
yields exactly the entries whose key carries the byte-prefix, in
ascending order; the validity check consults only the prefix (any
`from`/`to` set alongside are ignored), and the first advance seeks
directly to the prefix regardless of `from`/`to`.  (A reversed prefix
iterator also seeks to the prefix, hence yields at most the smallest
prefixed entry — see the counterexample.) -/
theorem c6_prefix_amended :
    (∀ (s : Store) (p : Bytes), sortedStore s →
      collect s false (withPfx newIter p) = s.filter (fun e => startsWith e.1 p))
    ∧ (∀ (s : Store) (pos : Int) (st : Bool) (f t : Option Bytes) (p : Bytes) (r : Bool),
      valid s (⟨pos, st, f, t, some p⟩ : LIter) r
        = valid s (⟨pos, st, none, none, some p⟩ : LIter) r)
    ∧ (∀ (s : Store) (it : LIter) (r : Bool) (p : Bytes), it.start = true →
      it.pfxK = some p →
      (advance s it r).1.pos = seekPos s p ∧ (advance s it r).1.start = false) := by
  refine ⟨?_, ?_, ?_⟩
  · intro s p hs
    unfold collect
    rw [run_succ, advance_fresh_pfx s (withPfx newIter p) false p rfl rfl]
    show (if valid s (⟨seekPos s p, false, none, none, some p⟩ : LIter) false = true
        then entryAt s (seekPos s p)
          :: run s false s.length (⟨seekPos s p, false, none, none, some p⟩ : LIter)
        else []) = s.filter (fun e => startsWith e.1 p)
    by_cases hfound : seekIdx p s < s.length
    · obtain ⟨e0, he0, hpe0⟩ := seekIdx_found p s hfound
      have hval : valid s (⟨seekPos s p, false, none, none, some p⟩ : LIter) false
          = startsWith e0.1 p := by
        rw [valid_eq_vKey]
        have hraw : rawValid s ((⟨seekPos s p, false, none, none, some p⟩ : LIter)).pos
            = true := by
          show rawValid s (seekPos s p) = true
          rw [rawValid_iff]
          unfold seekPos
          exact ⟨Int.natCast_nonneg _, by exact_mod_cast hfound⟩
        rw [hraw, Bool.true_and]
        have hkAt : keyAt s ((⟨seekPos s p, false, none, none, some p⟩ : LIter)).pos
            = e0.1 := by
          show keyAt s (((seekIdx p s : Nat) : Int)) = e0.1
          exact keyAt_of_get? he0
        rw [hkAt]
        rfl
      rw [hval]
      by_cases hsw : startsWith e0.1 p = true
      · rw [hsw, if_pos rfl]
        rw [run_fwd_started s s.length (seekIdx p s)
          (⟨seekPos s p, false, none, none, some p⟩ : LIter) rfl rfl (by omega)]
        show entryAt s (seekPos s p)
            :: (s.drop (seekIdx p s + 1)).takeWhile (fun e => startsWith e.1 p)
            = s.filter (fun e => startsWith e.1 p)
        have hent : entryAt s (seekPos s p) = e0 := by
          show entryAt s (((seekIdx p s : Nat) : Int)) = e0
          exact entryAt_of_get? he0
        rw [hent]
        have hdropGe : ∀ x ∈ s.drop (seekIdx p s + 1), lexLe p x.1 = true := by
          intro x hx
          obtain ⟨j, hj⟩ := List.mem_iff_get?.mp hx
          rw [List.get?_drop] at hj
          have hlt : lexLt e0.1 x.1 = true :=
            sorted_get?_lt hs (by omega) he0 hj
          exact lexLe_of_lexLt (lexLt_of_lexLe_of_lexLt hpe0 hlt)
        rw [takeWhile_eq_filter_of_sorted p (s.drop (seekIdx p s + 1))
          (List.Pairwise.sublist (List.drop_sublist _ _) hs) hdropGe]
        conv_rhs => rw [← List.take_append_drop (seekIdx p s) s]
        rw [List.filter_append]
        have h1 : List.filter (fun e : Bytes × Bytes => startsWith e.1 p)
            (s.take (seekIdx p s)) = [] := by
          rw [List.filter_eq_nil_iff]
          intro x hx hswx
          obtain ⟨j, hj⟩ := List.mem_iff_get?.mp hx
          have hjlt : j < seekIdx p s := by
            have := (List.get?_eq_some.mp hj).1
            rw [List.length_take] at this
            omega
          rw [List.get?_take hjlt] at hj
          have := seekIdx_lt p s j hjlt hj
          rw [lexLe_of_startsWith hswx] at this
          exact Bool.noConfusion this
        have h2 : s.drop (seekIdx p s) = e0 :: s.drop (seekIdx p s + 1) := by
          rw [List.drop_eq_get_cons hfound]
          rcases List.get?_eq_some.mp he0 with ⟨hh, hget⟩
          rw [hget]
        have h3 : List.filter (fun e : Bytes × Bytes => startsWith e.1 p)
            (e0 :: s.drop (seekIdx p s + 1))
            = e0 :: List.filter (fun e : Bytes × Bytes => startsWith e.1 p)
              (s.drop (seekIdx p s + 1)) := by
          rw [List.filter_cons]
          simp [hsw]
        rw [h1, h2, h3, List.nil_append]
      · have hsw2 : startsWith e0.1 p = false := by
          cases hx : startsWith e0.1 p with
          | false => rfl
          | true => exact absurd hx hsw
        rw [hsw2, if_neg (by simp)]
        symm
        rw [List.filter_eq_nil_iff]
        intro x hx hswx
        obtain ⟨j, hj⟩ := List.mem_iff_get?.mp hx
        rcases Nat.lt_trichotomy j (seekIdx p s) with hcmp | hcmp | hcmp
        · have := seekIdx_lt p s j hcmp hj
          rw [lexLe_of_startsWith hswx] at this
          exact Bool.noConfusion this
        · subst hcmp
          rw [he0] at hj
          cases hj
          rw [hswx] at hsw2
          exact Bool.noConfusion hsw2
        · have hlt : lexLt e0.1 x.1 = true := sorted_get?_lt hs hcmp he0 hj
          have hxe : lexLt x.1 e0.1 = true := by
            apply lexLt_of_startsWith_of_not ?_ hsw2 hswx
            rw [← lexLe_iff]
            exact hpe0
          have := lexLt_asymm hlt
          rw [hxe] at this
          exact Bool.noConfusion this
    · have hval : valid s (⟨seekPos s p, false, none, none, some p⟩ : LIter) false
          = false := by
        rw [valid_eq_vKey]
        have hraw : rawValid s ((⟨seekPos s p, false, none, none, some p⟩ : LIter)).pos
            = false := by
          show rawValid s (seekPos s p) = false
          rw [rawValid_false_iff]
          right
          unfold seekPos
          exact_mod_cast Nat.le_of_not_lt hfound
        rw [hraw, Bool.false_and]
      rw [hval, if_neg (by simp)]
      symm
      rw [List.filter_eq_nil_iff]
      intro x hx hswx
      obtain ⟨j, hj⟩ := List.mem_iff_get?.mp hx
      have hjn : j < s.length := (List.get?_eq_some.mp hj).1
      have hjlt : j < seekIdx p s := Nat.lt_of_lt_of_le hjn (Nat.le_of_not_lt hfound)
      have := seekIdx_lt p s j hjlt hj
      rw [lexLe_of_startsWith hswx] at this
      exact Bool.noConfusion this
  · intro s pos st f t p r
    rfl
  · intro s it r p h1 h2
    constructor
    · simp [advance, h1, h2]
    · simp [advance, h1, h2]

theorem c6_witness :
    collect storePfx false (withPfx newIter [1])
      = storePfx.filter (fun e => startsWith e.1 [1]) :=
  c6_prefix_amended.1 storePfx [1] (by decide)

end LdbIter
